import Mathlib

/-!
Verification development for the `test` assertion library and its embedded
line-based diff engine.

The development embeds, as executable Lean definitions:

* the `colour` package's environment-driven string colouring (`Colour`),
* the functional-options configuration machinery (`TestOpt`),
* the control flow of the public `Diff` assertion around `reflect.TypeOf`
  (`TestPkg`),
* the diff engine pipeline (tokenizer, matcher, hunk builder, renderer) in
  namespace `DiffEngine`.  The Go sources of the engine itself are not part of
  the source tree (only its test harness is), so those definitions are modelled
  from the specification, as marked in their doc comments.

Theorems named after claims C1-C10 follow the definitions.
-/

namespace Colour

/-- ANSI code for red text, from `internal/colour` (`codeRed`). -/
def codeRed : String := "\x1b[0;0031m"

/-- ANSI code for bold cyan diff headers, from `internal/colour` (`codeHeader`). -/
def codeHeader : String := "\x1b[1;0036m"

/-- ANSI code for green text, from `internal/colour` (`codeGreen`). -/
def codeGreen : String := "\x1b[0;0032m"

/-- ANSI reset code, from `internal/colour` (`codeReset`). -/
def codeReset : String := "\x1b[000000m"

/-- The result of `getColour`: whether `$NO_COLOR` and `$FORCE_COLOR` were set
in the process environment.  The Go code reads the environment once through
`sync.OnceValues`; since the cached value equals the computed one, the
environment is passed explicitly here. -/
structure Env where
  noColour : Bool
  forceColour : Bool

/-- Embedding of `sprint` (`internal/colour`): wraps `text` in `code` and the
reset code, honouring `$FORCE_COLOR` first and `$NO_COLOR` second. -/
def sprint (env : Env) (code text : String) : String :=
  if env.forceColour then code ++ text ++ codeReset
  else if env.noColour then text
  else code ++ text ++ codeReset

/-- Embedding of `Header` (`internal/colour`). -/
def headerText (env : Env) (text : String) : String := sprint env codeHeader text

/-- Embedding of `Green` (`internal/colour`). -/
def green (env : Env) (text : String) : String := sprint env codeGreen text

/-- Embedding of `Red` (`internal/colour`). -/
def red (env : Env) (text : String) : String := sprint env codeRed text

end Colour

namespace TestOpt

/-- A Go `float64` classified by IEEE-754 class.  The only operation the
configuration option performs on the value is `math.IsInf(threshold, 0)`, so
finite values are carried as rationals and the non-finite classes are explicit
constructors. -/
inductive GoFloat where
  | finite (val : ℚ)
  | posInf
  | negInf
  | nan
deriving DecidableEq

/-- Embedding of `math.IsInf(f, 0)`: true exactly for the two infinities
(`math.IsInf(NaN, 0)` is false). -/
def GoFloat.isInf : GoFloat → Bool
  | posInf => true
  | negInf => true
  | _ => false

/-- `defaultFloatEqualityThreshold = 1e-8`. -/
def defaultFloatEqualityThreshold : GoFloat := .finite (1 / 100000000)

/-- Embedding of the `config` struct. -/
structure Config where
  title : String
  context : String
  reason : String
  floatEqualityThreshold : GoFloat
deriving DecidableEq

/-- Embedding of `defaultConfig()`. -/
def defaultConfig : Config :=
  { title := "", context := "", reason := "",
    floatEqualityThreshold := defaultFloatEqualityThreshold }

/-- Embedding of `FloatEqualityThreshold(threshold).apply(cfg)`.  The Go option
mutates `cfg` through a pointer and returns an `error`; here the final
configuration is returned together with the optional error message.  The Go
code returns the error before the assignment, so in the error case the
configuration comes back untouched. -/
def floatEqualityThresholdApply (threshold : GoFloat) (cfg : Config) :
    Config × Option String :=
  if threshold.isInf then
    (cfg, some "cannot set floating point equality threshold to ±infinity")
  else ({ cfg with floatEqualityThreshold := threshold }, none)

end TestOpt

namespace TestPkg

/-- The `reflect.Kind` values distinguished by the `Diff` assertion: it only
tests whether the kind is `reflect.Struct`. -/
inductive ReflectKind where
  | boolKind
  | intKind
  | floatKind
  | stringKind
  | structKind
  | sliceKind
  | mapKind
  | ptrKind
  | otherKind
deriving DecidableEq

/-- A non-nil Go interface value: its dynamic type's kind plus an opaque
payload identifier.  A nil interface is `(none : Option GoDyn)`. -/
structure GoDyn where
  kind : ReflectKind
  payload : ℕ

/-- The observable outcome of running the `Diff` assertion: either a runtime
panic, or completion with a flag recording whether `t.Fatalf` was reached. -/
inductive Outcome where
  | panicked (msg : String)
  | completed (failed : Bool)
deriving DecidableEq

/-- Embedding of `reflect.TypeOf`: a nil interface value yields a nil
`reflect.Type` (here, the type is represented by its kind, which is all `Diff`
inspects). -/
def reflectTypeOf (v : Option GoDyn) : Option ReflectKind :=
  v.map GoDyn.kind

/-- Embedding of `Diff(t, got, want)` from `test.go` lines 135-146.
`cmpStruct` abstracts `cmp.Diff(want, got, cmp.AllowUnexported(got, want))`
and `cmpPlain` abstracts `cmp.Diff(want, got)`; both are arbitrary total
functions since go-cmp is an external collaborator.  The Go code invokes
`.Kind()` on the result of `reflect.TypeOf(got)` before anything else; when
`got` is nil that result is a nil interface and the method call panics. -/
def diffRun (cmpStruct cmpPlain : Option GoDyn → Option GoDyn → String)
    (got want : Option GoDyn) : Outcome :=
  match reflectTypeOf got with
  | none => .panicked "runtime error: invalid memory address or nil pointer dereference"
  | some k =>
    if k = .structKind then .completed (cmpStruct want got != "")
    else .completed (cmpPlain want got != "")

end TestPkg

/-- C10: in the colour package's `sprint` (and hence `Header`, `Green`, `Red`),
`$FORCE_COLOR` takes precedence over `$NO_COLOR`: whenever `$FORCE_COLOR` is
set the result is the colour code, the text, then the reset code, even if
`$NO_COLOR` is also set; if only `$NO_COLOR` is set the text is returned
unchanged; with neither set the text is colour-wrapped. -/
theorem colour_force_precedence (noC forceC : Bool) (code text : String) :
    (forceC = true →
      Colour.sprint ⟨noC, forceC⟩ code text = code ++ text ++ Colour.codeReset)
    ∧ (forceC = false → noC = true → Colour.sprint ⟨noC, forceC⟩ code text = text)
    ∧ (forceC = false → noC = false →
      Colour.sprint ⟨noC, forceC⟩ code text = code ++ text ++ Colour.codeReset)
    ∧ Colour.headerText ⟨noC, forceC⟩ text = Colour.sprint ⟨noC, forceC⟩ Colour.codeHeader text
    ∧ Colour.green ⟨noC, forceC⟩ text = Colour.sprint ⟨noC, forceC⟩ Colour.codeGreen text
    ∧ Colour.red ⟨noC, forceC⟩ text = Colour.sprint ⟨noC, forceC⟩ Colour.codeRed text := by
  refine ⟨fun h => ?_, fun h h2 => ?_, fun h h2 => ?_, rfl, rfl, rfl⟩
  · simp [Colour.sprint, h]
  · simp [Colour.sprint, h, h2]
  · simp [Colour.sprint, h, h2]

/-- Closed witness for `colour_force_precedence` at a concrete environment:
with both variables set, the forced colour wins; with only `$NO_COLOR`, the
text comes back unchanged. -/
theorem colour_force_precedence_witness :
    Colour.sprint ⟨true, true⟩ Colour.codeGreen "hi"
      = Colour.codeGreen ++ "hi" ++ Colour.codeReset
    ∧ Colour.sprint ⟨true, false⟩ Colour.codeGreen "hi" = "hi" :=
  ⟨(colour_force_precedence true true Colour.codeGreen "hi").1 rfl,
   (colour_force_precedence true false Colour.codeGreen "hi").2.1 rfl rfl⟩

/-- C9: `FloatEqualityThreshold(threshold).apply(cfg)` errors exactly when the
threshold is positive or negative infinity, leaving the configuration
untouched in that case; for every other value (finite, zero, negative, NaN) it
succeeds and stores the threshold. -/
theorem float_threshold_option (threshold : TestOpt.GoFloat) (cfg : TestOpt.Config) :
    ((TestOpt.floatEqualityThresholdApply threshold cfg).2.isSome = true
      ↔ threshold = .posInf ∨ threshold = .negInf)
    ∧ (threshold = .posInf ∨ threshold = .negInf →
      (TestOpt.floatEqualityThresholdApply threshold cfg).1 = cfg)
    ∧ (threshold ≠ .posInf → threshold ≠ .negInf →
      TestOpt.floatEqualityThresholdApply threshold cfg
        = ({ cfg with floatEqualityThreshold := threshold }, none)) := by
  cases threshold <;>
    simp [TestOpt.floatEqualityThresholdApply, TestOpt.GoFloat.isInf]

/-- Closed witness for `float_threshold_option`: at `+∞` the configuration is
unchanged, and at NaN the option succeeds and stores NaN. -/
theorem float_threshold_option_witness :
    (TestOpt.floatEqualityThresholdApply .posInf TestOpt.defaultConfig).1
      = TestOpt.defaultConfig
    ∧ TestOpt.floatEqualityThresholdApply .nan TestOpt.defaultConfig
      = ({ TestOpt.defaultConfig with floatEqualityThreshold := .nan }, none) :=
  ⟨(float_threshold_option .posInf TestOpt.defaultConfig).2.1 (Or.inl rfl),
   (float_threshold_option .nan TestOpt.defaultConfig).2.2
      (by decide) (by decide)⟩

/-- C8: calling `test.Diff(t, got, want)` with a nil interface `got` panics for
every `want`: `reflect.TypeOf(got)` is a nil `reflect.Type` and `.Kind()` is
invoked on it before any comparison runs; with any non-nil `got` the function
completes without panicking. -/
theorem diff_nil_got_panics
    (cmpStruct cmpPlain : Option TestPkg.GoDyn → Option TestPkg.GoDyn → String)
    (want : Option TestPkg.GoDyn) :
    TestPkg.diffRun cmpStruct cmpPlain none want
      = .panicked "runtime error: invalid memory address or nil pointer dereference"
    ∧ TestPkg.reflectTypeOf none = none
    ∧ ∀ g : TestPkg.GoDyn, ∃ failed,
        TestPkg.diffRun cmpStruct cmpPlain (some g) want = .completed failed := by
  refine ⟨rfl, rfl, fun g => ?_⟩
  by_cases h : g.kind = .structKind
  · exact ⟨cmpStruct want (some g) != "", by simp [TestPkg.diffRun, TestPkg.reflectTypeOf, h]⟩
  · exact ⟨cmpPlain want (some g) != "", by simp [TestPkg.diffRun, TestPkg.reflectTypeOf, h]⟩

namespace DiffEngine

/-- Modelled from the spec: the diff engine's Line (§3, §4.1); the engine's Go
source (`internal/diff`) is not in the tree.  A line is an owned copy of one
input line: `content` excludes the terminator and `terminated` records whether
the line ended with a newline, so two lines compare equal only when content
and terminator presence both coincide. -/
structure Line where
  content : List Char
  terminated : Bool
deriving DecidableEq

/-- Modelled from the spec: EditOp (§3), a tagged variant over
Equal/Delete/Insert carrying the line involved (lines are owned copies, so the
line itself stands in for an index into the input). -/
inductive EditOp where
  | equal (l : Line)
  | delete (l : Line)
  | insert (l : Line)
deriving DecidableEq

/-- Whether an op is an Equal (context) op. -/
def EditOp.isEqual : EditOp → Bool
  | .equal _ => true
  | _ => false

/-- Old-side lines of an edit script: the lines of Equal and Delete ops, in
order (§3: their concatenation reproduces text A). -/
def olds : List EditOp → List Line
  | [] => []
  | .equal l :: rest => l :: olds rest
  | .delete l :: rest => l :: olds rest
  | .insert _ :: rest => olds rest

/-- New-side lines of an edit script: the lines of Equal and Insert ops, in
order (§3: their concatenation reproduces text B). -/
def news : List EditOp → List Line
  | [] => []
  | .equal l :: rest => l :: news rest
  | .delete _ :: rest => news rest
  | .insert l :: rest => l :: news rest

/-- The cost of an edit script: its number of non-Equal ops (the edit distance
it realises). -/
def costOps (ops : List EditOp) : ℕ := ops.countP (fun op => !op.isEqual)

/-- Modelled from the spec: the Matcher contract (§4.2); the Go source of the
engine is absent.  The contract is a shortest edit script over
{Equal, Delete, Insert}; it is computed here by the textbook recursion on the
two line sequences (extend the diagonal whenever the heads are equal — the
"snake" rule — otherwise take the cheaper of deleting the old head or
inserting the new head), which `matcher_minimal` proves returns a
minimum-cost script, the guarantee §4.2 states for the Myers search. -/
def matchLines : List Line → List Line → List EditOp
  | [], ys => ys.map .insert
  | x :: xs, [] => (x :: xs).map .delete
  | x :: xs, y :: ys =>
    if x = y then .equal x :: matchLines xs ys
    else
      let del := matchLines xs (y :: ys)
      let ins := matchLines (x :: xs) ys
      if costOps del ≤ costOps ins then .delete x :: del
      else .insert y :: ins
termination_by xs ys => xs.length + ys.length

/-- Modelled from the spec: the Matcher as a bounded iterative search (§4.2,
§9): the Myers loop raises the edit distance D step by step and stops at the
corner, after at most N + M rounds; `fuel` bounds the rounds the same way and
`none` means the bound was exhausted.  `matcher_terminates` shows fuel above
N + M always suffices, which is the termination guarantee of §4.2/§7. -/
def matchLinesFuel : ℕ → List Line → List Line → Option (List EditOp)
  | 0, _, _ => none
  | _ + 1, [], ys => some (ys.map .insert)
  | _ + 1, x :: xs, [] => some ((x :: xs).map .delete)
  | fuel + 1, x :: xs, y :: ys =>
    if x = y then (matchLinesFuel fuel xs ys).map (.equal x :: ·)
    else
      match matchLinesFuel fuel xs (y :: ys), matchLinesFuel fuel (x :: xs) ys with
      | some del, some ins =>
          some (if costOps del ≤ costOps ins then .delete x :: del else .insert y :: ins)
      | _, _ => none

/-- The executable matcher `Diff` runs: the bounded search with fuel N + M + 1,
which always succeeds. -/
def matchLinesExec (xs ys : List Line) : List EditOp :=
  (matchLinesFuel (xs.length + ys.length + 1) xs ys).getD []

/-- Modelled from the spec: the Tokenizer (§4.1); the engine's Go source is
absent.  Splits on newline; a line's content excludes the terminator; the
final line is marked unterminated when the buffer does not end in a newline;
empty input yields zero lines. -/
def split : List Char → List Line
  | [] => []
  | c :: rest =>
    if c = '\n' then ⟨[], true⟩ :: split rest
    else
      match split rest with
      | [] => [⟨[c], false⟩]
      | l :: ls => ⟨c :: l.content, l.terminated⟩ :: ls

/-- Rejoin lines with their terminators: the left inverse of `split`. -/
def unsplit (ls : List Line) : List Char :=
  ls.flatMap fun l => l.content ++ if l.terminated then ['\n'] else []

/-- Modelled from the spec: the brute-force reference for line-level edit
distance (§8 Minimality): the textbook exponential recurrence, with matching
heads free and otherwise one plus the cheaper of dropping the old head or the
new head.  `matcher_minimal` proves it equal to the matcher's cost and a lower
bound for every edit script. -/
def editDistance : List Line → List Line → ℕ
  | [], ys => ys.length
  | x :: xs, [] => (x :: xs).length
  | x :: xs, y :: ys =>
    if x = y then editDistance xs ys
    else 1 + min (editDistance xs (y :: ys)) (editDistance (x :: xs) ys)
termination_by xs ys => xs.length + ys.length

/-- Modelled from the spec: Hunk (§3): a contiguous run of EditOps plus the
1-based start lines and shown-line counts for both sides. -/
structure Hunk where
  oldStart : ℕ
  oldCount : ℕ
  newStart : ℕ
  newCount : ℕ
  ops : List EditOp
deriving DecidableEq

/-- Number of old-side lines an op run shows (Equal + Delete ops). -/
def oldLen (ops : List EditOp) : ℕ := (olds ops).length

/-- Number of new-side lines an op run shows (Equal + Insert ops). -/
def newLen (ops : List EditOp) : ℕ := (news ops).length

/-- Modelled from the spec (§4.3): build a hunk from its body `ops` given the
number of old/new file lines preceding the body.  A side shown with count 0
reports the line after which the change occurs; otherwise starts are the
1-based number of the first shown line. -/
def mkHunk (oldBefore newBefore : ℕ) (ops : List EditOp) : Hunk :=
  { oldStart := if oldLen ops = 0 then oldBefore else oldBefore + 1
    oldCount := oldLen ops
    newStart := if newLen ops = 0 then newBefore else newBefore + 1
    newCount := newLen ops
    ops := ops }

/-- One step of the run decomposition: prepend `op` to an already decomposed
tail (leading Equal run, then (changed run, Equal run) pairs).  An Equal op
extends the leading run; a changed op opens a new changed run, or extends the
first one when no Equal line separates them. -/
def pushOp (op : EditOp) (lp : List EditOp × List (List EditOp × List EditOp)) :
    List EditOp × List (List EditOp × List EditOp) :=
  if op.isEqual then (op :: lp.1, lp.2)
  else
    match lp.1, lp.2 with
    | [], (c, e) :: ps => ([], (op :: c, e) :: ps)
    | [], [] => ([], ([op], []) :: [])
    | l :: ls, parts => ([], ([op], l :: ls) :: parts)

/-- Modelled from the spec (§4.3): decompose the edit script into a leading
Equal run and an alternating list of (changed run, following Equal run)
pairs; the changed runs are nonempty and the concatenation restores the
script. -/
def parseRuns : List EditOp → List EditOp × List (List EditOp × List EditOp)
  | [] => ([], [])
  | op :: rest => pushOp op (parseRuns rest)

/-- Modelled from the spec (§4.3): merge adjacent changed regions whose
unchanged gap is at most `2*ctx` lines into one region. -/
def mergeParts (ctx : ℕ) :
    List (List EditOp × List EditOp) → List (List EditOp × List EditOp)
  | [] => []
  | [p] => [p]
  | (c1, e1) :: p2 :: rest =>
    match mergeParts ctx (p2 :: rest) with
    | [] => [(c1, e1)]
    | (c2, e2) :: ps =>
      if e1.length ≤ 2 * ctx then (c1 ++ e1 ++ c2, e2) :: ps
      else (c1, e1) :: (c2, e2) :: ps

/-- Modelled from the spec (§4.3): emit one hunk per merged changed region,
surrounding it with up to `ctx` Equal context lines clipped at the file
boundaries.  `pre` is the full Equal run before the current region; `o` and
`n` count the old/new file lines preceding `pre`. -/
def buildFromParts (ctx : ℕ) :
    ℕ → ℕ → List EditOp → List (List EditOp × List EditOp) → List Hunk
  | _, _, _, [] => []
  | o, n, pre, (c, e) :: ps =>
    mkHunk (o + (pre.length - ctx)) (n + (pre.length - ctx))
        (pre.drop (pre.length - ctx) ++ c ++ e.take ctx)
      :: buildFromParts ctx (o + pre.length + oldLen c) (n + pre.length + newLen c) e ps

/-- Modelled from the spec: buildHunks(editScript, contextSize) (§4.3). -/
def buildHunks (ctx : ℕ) (ops : List EditOp) : List Hunk :=
  buildFromParts ctx 0 0 (parseRuns ops).1 (mergeParts ctx (parseRuns ops).2)

/-- Decimal digit characters of a natural number. -/
def natChars (k : ℕ) : List Char := Nat.toDigits 10 k

/-- Modelled from the spec (§4.4): the hunk header line (newline excluded):
`@@ -oldStart,oldCount +newStart,newCount @@`. -/
def hunkHeader (h : Hunk) : List Char :=
  "@@ -".data ++ natChars h.oldStart ++ ",".data ++ natChars h.oldCount
    ++ " +".data ++ natChars h.newStart ++ ",".data ++ natChars h.newCount
    ++ " @@".data

/-- The conventional marker line emitted after a line that lacked its trailing
newline. -/
def noNewlineMarker : List Char := "\\ No newline at end of file".data

/-- Modelled from the spec (§4.4): the output lines of one edit op: a body
line made of the `" "`, `"-"` or `"+"` marker followed by the line content
verbatim, then the no-newline marker line after an unterminated final line. -/
def opLines : EditOp → List (List Char)
  | .equal l => (' ' :: l.content) :: (if l.terminated then [] else [noNewlineMarker])
  | .delete l => ('-' :: l.content) :: (if l.terminated then [] else [noNewlineMarker])
  | .insert l => ('+' :: l.content) :: (if l.terminated then [] else [noNewlineMarker])

/-- Modelled from the spec (§4.4): the rendered lines of one hunk: the header
followed by one prefixed body line per op. -/
def renderHunkLines (h : Hunk) : List (List Char) :=
  hunkHeader h :: h.ops.flatMap opLines

/-- Modelled from the spec (§4.4): the rendered text: every rendered line
followed by a newline; the empty hunk sequence renders as the empty text. -/
def renderAll (hs : List Hunk) : List Char :=
  (hs.flatMap renderHunkLines).flatMap (fun l => l ++ ['\n'])

/-- Modelled from the spec (§6): the engine's fixed context size, the
conventional 3 lines. -/
def contextSize : ℕ := 3

/-- The hunk sequence `Diff` computes for two byte buffers (bytes are
modelled as characters; all inputs in the spec's scenarios are ASCII). -/
def diffHunks (old new : List Char) : List Hunk :=
  buildHunks contextSize (matchLinesExec (split old) (split new))

/-- Modelled from the spec (§6): `Diff(labelOld, old, labelNew, new)`.  This
design takes the documented option (§6, §9) of emitting no `---`/`+++` file
header lines, so the labels do not appear in the output and equal inputs
render as the empty buffer. -/
def Diff (_labelOld : List Char) (old : List Char) (_labelNew : List Char)
    (new : List Char) : List Char :=
  renderAll (diffHunks old new)

end DiffEngine

namespace DiffEngine

theorem olds_map_insert (ys : List Line) : olds (ys.map .insert) = [] := by
  induction ys with
  | nil => rfl
  | cons y ys ih => simp [olds, ih]

theorem news_map_insert (ys : List Line) : news (ys.map .insert) = ys := by
  induction ys with
  | nil => rfl
  | cons y ys ih => simp [news, ih]

theorem olds_map_delete (xs : List Line) : olds (xs.map .delete) = xs := by
  induction xs with
  | nil => rfl
  | cons x xs ih => simp [olds, ih]

theorem news_map_delete (xs : List Line) : news (xs.map .delete) = [] := by
  induction xs with
  | nil => rfl
  | cons x xs ih => simp [news, ih]

theorem costOps_cons_equal (l : Line) (r : List EditOp) :
    costOps (.equal l :: r) = costOps r := by
  simp [costOps, List.countP_cons, EditOp.isEqual]

theorem costOps_cons_delete (l : Line) (r : List EditOp) :
    costOps (.delete l :: r) = costOps r + 1 := by
  simp [costOps, List.countP_cons, EditOp.isEqual]

theorem costOps_cons_insert (l : Line) (r : List EditOp) :
    costOps (.insert l :: r) = costOps r + 1 := by
  simp [costOps, List.countP_cons, EditOp.isEqual]

theorem costOps_map_insert (ys : List Line) : costOps (ys.map .insert) = ys.length := by
  induction ys with
  | nil => rfl
  | cons y ys ih => simp [costOps_cons_insert, ih]

theorem costOps_map_delete (xs : List Line) : costOps (xs.map .delete) = xs.length := by
  induction xs with
  | nil => rfl
  | cons x xs ih => simp [costOps_cons_delete, ih]

/-- The unfolded form of the matcher in the mismatching-heads case. -/
theorem matchLines_cons_cons_ne (x : Line) (xs : List Line) (y : Line) (ys : List Line)
    (h : ¬x = y) :
    matchLines (x :: xs) (y :: ys)
      = if costOps (matchLines xs (y :: ys)) ≤ costOps (matchLines (x :: xs) ys)
        then .delete x :: matchLines xs (y :: ys)
        else .insert y :: matchLines (x :: xs) ys := by
  rw [matchLines]
  simp [h]

/-- Replaying the matcher's edit script reproduces both line sequences. -/
theorem matchLines_replay (xs ys : List Line) :
    olds (matchLines xs ys) = xs ∧ news (matchLines xs ys) = ys := by
  induction xs, ys using matchLines.induct with
  | case1 ys => simp [matchLines, olds, news, olds_map_insert, news_map_insert]
  | case2 x xs => simp [matchLines, olds, news, olds_map_delete, news_map_delete]
  | case3 xs y ys ih =>
    rw [matchLines]
    simp [olds, news, ih.1, ih.2]
  | case4 x xs y ys h del ins hc ih1 ih2 =>
    rw [matchLines_cons_cons_ne x xs y ys h, if_pos hc]
    simp [olds, news, ih1.1, ih1.2]
  | case5 x xs y ys h del ins hc ih1 ih2 =>
    rw [matchLines_cons_cons_ne x xs y ys h, if_neg hc]
    simp [olds, news, ih2.1, ih2.2]

/-- On identical inputs the matcher returns an all-Equal script. -/
theorem matchLines_self (xs : List Line) : matchLines xs xs = xs.map .equal := by
  induction xs with
  | nil => rw [matchLines]; rfl
  | cons x xs ih =>
    rw [matchLines]
    simp [ih]

theorem editDistance_nil_right (as : List Line) : editDistance as [] = as.length := by
  cases as <;> simp [editDistance]

/-- The matcher's cost satisfies the reference edit-distance recurrence. -/
theorem costOps_matchLines (xs ys : List Line) :
    costOps (matchLines xs ys) = editDistance xs ys := by
  induction xs, ys using matchLines.induct with
  | case1 ys => simp [matchLines, editDistance, costOps_map_insert]
  | case2 x xs =>
    simp [matchLines, editDistance_nil_right, costOps_cons_delete, costOps_map_delete]
  | case3 xs y ys ih =>
    rw [matchLines, editDistance]
    simp [costOps_cons_equal, ih]
  | case4 x xs y ys h del ins hc ih1 ih2 =>
    rw [matchLines_cons_cons_ne x xs y ys h, if_pos hc, editDistance, if_neg h,
      costOps_cons_delete, ih1]
    have hc2 : costOps (matchLines xs (y :: ys)) ≤ costOps (matchLines (x :: xs) ys) := hc
    rw [ih1, ih2] at hc2
    omega
  | case5 x xs y ys h del ins hc ih1 ih2 =>
    rw [matchLines_cons_cons_ne x xs y ys h, if_neg hc, editDistance, if_neg h,
      costOps_cons_insert, ih2]
    have hc2 : ¬costOps (matchLines xs (y :: ys)) ≤ costOps (matchLines (x :: xs) ys) := hc
    rw [ih1, ih2] at hc2
    omega

/-- Adding or removing one line on either side changes the reference edit
distance by at most one. -/
theorem editDistance_adjacent :
    ∀ (k : ℕ) (as bs : List Line), as.length + bs.length ≤ k →
      (∀ a, editDistance (a :: as) bs ≤ 1 + editDistance as bs)
      ∧ (∀ b, editDistance as (b :: bs) ≤ 1 + editDistance as bs)
      ∧ (∀ a, editDistance as bs ≤ 1 + editDistance (a :: as) bs)
      ∧ (∀ b, editDistance as bs ≤ 1 + editDistance as (b :: bs)) := by
  intro k
  induction k with
  | zero =>
    intro as bs h
    have ha : as = [] := by cases as <;> simp_all
    have hb : bs = [] := by cases bs <;> simp_all
    subst ha hb
    refine ⟨fun a => ?_, fun b => ?_, fun a => ?_, fun b => ?_⟩ <;>
      simp [editDistance, editDistance_nil_right]
  | succ m ih =>
    intro as bs h
    refine ⟨fun a => ?_, fun b => ?_, fun a => ?_, fun b => ?_⟩
    · -- editDistance (a :: as) bs ≤ 1 + editDistance as bs
      cases bs with
      | nil => simp [editDistance_nil_right]; omega
      | cons b bs' =>
        have hm : as.length + bs'.length ≤ m := by simp at h; omega
        by_cases hab : a = b
        · subst hab
          rw [editDistance, if_pos rfl]
          exact (ih as bs' hm).2.2.2 a
        · rw [editDistance, if_neg hab]
          have := Nat.min_le_left (editDistance as (b :: bs'))
            (editDistance (a :: as) bs')
          omega
    · -- editDistance as (b :: bs) ≤ 1 + editDistance as bs
      cases as with
      | nil => simp [editDistance]; omega
      | cons a as' =>
        have hm : as'.length + bs.length ≤ m := by simp at h; omega
        by_cases hab : a = b
        · subst hab
          rw [editDistance, if_pos rfl]
          exact (ih as' bs hm).2.2.1 a
        · rw [editDistance, if_neg hab]
          have := Nat.min_le_right (editDistance as' (b :: bs))
            (editDistance (a :: as') bs)
          omega
    · -- editDistance as bs ≤ 1 + editDistance (a :: as) bs
      cases bs with
      | nil => simp [editDistance_nil_right]; omega
      | cons b bs' =>
        have hm : as.length + bs'.length ≤ m := by simp at h; omega
        by_cases hab : a = b
        · subst hab
          rw [editDistance, if_pos rfl]
          exact (ih as bs' hm).2.1 a
        · rw [editDistance, if_neg hab]
          have h1 := (ih as bs' hm).2.1 b
          have h2 := (ih as bs' hm).2.2.1 a
          have h3 := min_choice (editDistance as (b :: bs'))
            (editDistance (a :: as) bs')
          omega
    · -- editDistance as bs ≤ 1 + editDistance as (b :: bs)
      cases as with
      | nil => simp [editDistance]; omega
      | cons a as' =>
        have hm : as'.length + bs.length ≤ m := by simp at h; omega
        by_cases hab : a = b
        · subst hab
          rw [editDistance, if_pos rfl]
          exact (ih as' bs hm).1 a
        · rw [editDistance, if_neg hab]
          have h1 := (ih as' bs hm).1 a
          have h2 := (ih as' bs hm).2.2.2 b
          have h3 := min_choice (editDistance as' (b :: bs))
            (editDistance (a :: as') bs)
          omega

theorem editDistance_cons_left_le (a : Line) (as bs : List Line) :
    editDistance (a :: as) bs ≤ 1 + editDistance as bs :=
  (editDistance_adjacent (as.length + bs.length) as bs le_rfl).1 a

theorem editDistance_cons_right_le (b : Line) (as bs : List Line) :
    editDistance as (b :: bs) ≤ 1 + editDistance as bs :=
  (editDistance_adjacent (as.length + bs.length) as bs le_rfl).2.1 b

/-- The reference edit distance is a lower bound on the cost of every edit
script between the two line sequences. -/
theorem editDistance_le_costOps :
    ∀ (s : List EditOp), editDistance (olds s) (news s) ≤ costOps s := by
  intro s
  induction s with
  | nil => simp [olds, news, editDistance, costOps]
  | cons op rest ih =>
    cases op with
    | equal l =>
      rw [olds, news, costOps_cons_equal, editDistance, if_pos rfl]
      exact ih
    | delete l =>
      rw [olds, news, costOps_cons_delete]
      calc editDistance (l :: olds rest) (news rest)
          ≤ 1 + editDistance (olds rest) (news rest) :=
            editDistance_cons_left_le l (olds rest) (news rest)
        _ ≤ 1 + costOps rest := by omega
        _ = costOps rest + 1 := by omega
    | insert l =>
      rw [olds, news, costOps_cons_insert]
      calc editDistance (olds rest) (l :: news rest)
          ≤ 1 + editDistance (olds rest) (news rest) :=
            editDistance_cons_right_le l (olds rest) (news rest)
        _ ≤ 1 + costOps rest := by omega
        _ = costOps rest + 1 := by omega

end DiffEngine

namespace DiffEngine

theorem unsplit_cons (l : Line) (ls : List Line) :
    unsplit (l :: ls)
      = (l.content ++ if l.terminated then ['\n'] else []) ++ unsplit ls := by
  simp [unsplit]

/-- Retokenizing: joining the lines `split` produces, each with its recorded
terminator, restores the input buffer exactly; hence `split` is injective. -/
theorem unsplit_split (buf : List Char) : unsplit (split buf) = buf := by
  induction buf with
  | nil => rfl
  | cons c rest ih =>
    rw [split]
    by_cases hc : c = '\n'
    · rw [if_pos hc, unsplit_cons, ih]
      subst hc
      rfl
    · rw [if_neg hc]
      cases hsr : split rest with
      | nil =>
        have hrest : rest = [] := by
          rw [hsr] at ih
          simpa [unsplit] using ih.symm
        subst hrest
        simp [unsplit]
      | cons l ls =>
        rw [hsr, unsplit_cons] at ih
        rw [unsplit_cons]
        simp only [List.cons_append, List.append_assoc] at ih ⊢
        rw [ih]

/-- With fuel above N + M, the bounded search returns exactly the matcher's
edit script. -/
theorem matchLinesFuel_eq :
    ∀ (fuel : ℕ) (xs ys : List Line), xs.length + ys.length < fuel →
      matchLinesFuel fuel xs ys = some (matchLines xs ys) := by
  intro fuel
  induction fuel with
  | zero => intro xs ys h; exact absurd h (Nat.not_lt_zero _)
  | succ f ih =>
    intro xs ys h
    cases xs with
    | nil => rw [matchLinesFuel, matchLines]
    | cons x xs =>
      cases ys with
      | nil => rw [matchLinesFuel, matchLines]
      | cons y ys =>
        have h1 : xs.length + (y :: ys).length < f := by
          simp at h ⊢
          omega
        have h2 : (x :: xs).length + ys.length < f := by
          simp at h ⊢
          omega
        have h3 : xs.length + ys.length < f := by
          simp at h
          omega
        rw [matchLinesFuel]
        by_cases hxy : x = y
        · rw [if_pos hxy, ih _ _ h3, matchLines, if_pos hxy]
          rfl
        · rw [if_neg hxy, ih _ _ h1, ih _ _ h2,
            matchLines_cons_cons_ne x xs y ys hxy]

/-- The executable matcher agrees with the recursive one. -/
theorem matchLinesExec_eq (xs ys : List Line) :
    matchLinesExec xs ys = matchLines xs ys := by
  rw [matchLinesExec, matchLinesFuel_eq _ _ _ (by omega)]
  rfl

end DiffEngine

open DiffEngine in
/-- C2: the matcher's edit script is a valid transformation witness: the
concatenation of the old-side lines of every Delete/Insert/Equal op, in
order, reproduces the old input bytes exactly, and the new-side lines
reproduce the new input bytes exactly. -/
theorem matcher_round_trip (A B : List Char) :
    unsplit (olds (matchLinesExec (split A) (split B))) = A
    ∧ unsplit (news (matchLinesExec (split A) (split B))) = B := by
  rw [matchLinesExec_eq]
  exact ⟨by rw [(matchLines_replay _ _).1, unsplit_split],
    by rw [(matchLines_replay _ _).2, unsplit_split]⟩

open DiffEngine in
/-- C3: the matcher produces a minimum-length edit script: its number of
non-Equal ops equals the brute-force reference edit distance, which in turn
is a lower bound on the cost of every edit script relating the two line
sequences. -/
theorem matcher_minimal (xs ys : List Line) :
    costOps (matchLinesExec xs ys) = editDistance xs ys
    ∧ ∀ s : List EditOp, olds s = xs → news s = ys →
        editDistance xs ys ≤ costOps s := by
  constructor
  · rw [matchLinesExec_eq]
    exact costOps_matchLines xs ys
  · intro s h1 h2
    subst h1
    subst h2
    exact editDistance_le_costOps s

open DiffEngine in
/-- Closed witness for `matcher_minimal`: one changed line out of one costs
exactly the reference distance, and the explicit two-op script is bounded
below by it. -/
theorem matcher_minimal_witness :
    costOps (matchLinesExec [⟨['a'], true⟩] [⟨['b'], true⟩])
      = editDistance [⟨['a'], true⟩] [⟨['b'], true⟩]
    ∧ editDistance [⟨['a'], true⟩] [⟨['b'], true⟩]
        ≤ costOps [.delete ⟨['a'], true⟩, .insert ⟨['b'], true⟩] :=
  ⟨(matcher_minimal [⟨['a'], true⟩] [⟨['b'], true⟩]).1,
   (matcher_minimal [⟨['a'], true⟩] [⟨['b'], true⟩]).2
      [.delete ⟨['a'], true⟩, .insert ⟨['b'], true⟩] (by decide) (by decide)⟩

open DiffEngine in
/-- C7: the engine terminates and never fails on any pair of byte buffers:
the bounded Myers-style search completes within N + M + 1 rounds with the
matcher's script, and the public `Diff` is the total rendering of the hunks
built from it — there is no error outcome at the interface. -/
theorem matcher_terminates (lo A ln B : List Char) (fuel : ℕ)
    (h : (split A).length + (split B).length < fuel) :
    matchLinesFuel fuel (split A) (split B) = some (matchLines (split A) (split B))
    ∧ DiffEngine.Diff lo A ln B
        = renderAll (buildHunks contextSize (matchLines (split A) (split B))) := by
  refine ⟨matchLinesFuel_eq fuel _ _ h, ?_⟩
  rw [DiffEngine.Diff, diffHunks, matchLinesExec_eq]

open DiffEngine in
/-- Closed witness for `matcher_terminates` on concrete one-line buffers with
fuel 3. -/
theorem matcher_terminates_witness :
    matchLinesFuel 3 (split "a".data) (split "b".data)
      = some (matchLines (split "a".data) (split "b".data))
    ∧ DiffEngine.Diff [] "a".data [] "b".data
        = renderAll (buildHunks contextSize
            (matchLines (split "a".data) (split "b".data))) :=
  matcher_terminates [] "a".data [] "b".data 3 (by decide)

namespace DiffEngine

/-- The flattened script a run decomposition stands for. -/
def partsFlat (parts : List (List EditOp × List EditOp)) : List EditOp :=
  parts.flatMap fun p => p.1 ++ p.2

/-- Interleave gap runs and hunk bodies back into an edit script; used to
state that the built hunks tile the script with all-Equal gaps between them. -/
def glueHunks : List (List EditOp) → List Hunk → List EditOp
  | gs, [] => gs.flatten
  | [], _ :: _ => []
  | g :: gs, h :: hs => g ++ h.ops ++ glueHunks gs hs

/-- Length of the leading Equal run of an op list. -/
def eqPrefLen (ops : List EditOp) : ℕ := (ops.takeWhile EditOp.isEqual).length

/-- Length of the trailing Equal run of an op list. -/
def eqSufLen (ops : List EditOp) : ℕ := (ops.reverse.takeWhile EditOp.isEqual).length

theorem partsFlat_nil : partsFlat [] = [] := rfl

theorem partsFlat_cons (c e : List EditOp) (ps : List (List EditOp × List EditOp)) :
    partsFlat ((c, e) :: ps) = c ++ e ++ partsFlat ps := by
  simp [partsFlat]

theorem pushOp_equal (op : EditOp) (lp : List EditOp × List (List EditOp × List EditOp))
    (h : op.isEqual = true) : pushOp op lp = (op :: lp.1, lp.2) := by
  simp [pushOp, h]

theorem pushOp_change_merge (op : EditOp) (c e : List EditOp)
    (ps : List (List EditOp × List EditOp)) (h : op.isEqual = false) :
    pushOp op ([], (c, e) :: ps) = ([], (op :: c, e) :: ps) := by
  simp [pushOp, h]

theorem pushOp_change_first (op : EditOp) (h : op.isEqual = false) :
    pushOp op ([], []) = ([], [([op], [])]) := by
  simp [pushOp, h]

theorem pushOp_change_lead (op : EditOp) (l : EditOp) (ls : List EditOp)
    (parts : List (List EditOp × List EditOp)) (h : op.isEqual = false) :
    pushOp op (l :: ls, parts) = ([], ([op], l :: ls) :: parts) := by
  simp [pushOp, h]

/-- Structure of the run decomposition: the leading run is all Equal, the
changed runs are nonempty, the gap runs are all Equal, and the decomposition
flattens back to the script. -/
theorem parseRuns_spec (ops : List EditOp) :
    (∀ op ∈ (parseRuns ops).1, op.isEqual = true)
    ∧ (parseRuns ops).1 ++ partsFlat (parseRuns ops).2 = ops
    ∧ (∀ p ∈ (parseRuns ops).2, p.1 ≠ [] ∧ ∀ op ∈ p.2, op.isEqual = true) := by
  induction ops with
  | nil => simp [parseRuns, partsFlat]
  | cons op rest ih =>
    rcases hlp : parseRuns rest with ⟨lead, parts⟩
    rw [hlp] at ih
    obtain ⟨ihLead, ihFlat, ihParts⟩ := ih
    simp only at ihLead ihFlat ihParts
    rw [parseRuns, hlp]
    by_cases he : op.isEqual
    · rw [pushOp_equal op (lead, parts) he]
      refine ⟨?_, ?_, ihParts⟩
      · intro o ho
        rcases List.mem_cons.mp ho with h | h
        · subst h
          exact he
        · exact ihLead o h
      · simpa using ihFlat
    · replace he : op.isEqual = false := by simpa using he
      cases lead with
      | nil =>
        cases parts with
        | nil =>
          rw [pushOp_change_first op he]
          refine ⟨by simp, ?_, ?_⟩
          · have hr : rest = [] := by simpa [partsFlat] using ihFlat.symm
            subst hr
            simp [partsFlat]
          · intro p hp
            rcases List.mem_cons.mp hp with h | h
            · subst h
              exact ⟨by simp, by simp⟩
            · simp at h
        | cons q qs =>
          obtain ⟨c, e⟩ := q
          rw [pushOp_change_merge op c e qs he]
          refine ⟨by simp, ?_, ?_⟩
          · rw [partsFlat_cons] at ihFlat ⊢
            simp only [List.nil_append] at ihFlat ⊢
            simp only [List.cons_append]
            rw [ihFlat]
          · intro p hp
            rcases List.mem_cons.mp hp with h | h
            · subst h
              exact ⟨by simp, (ihParts (c, e) (by simp)).2⟩
            · exact ihParts p (List.mem_cons_of_mem _ h)
      | cons l ls =>
        rw [pushOp_change_lead op l ls parts he]
        refine ⟨by simp, ?_, ?_⟩
        · rw [partsFlat_cons]
          simp only [List.nil_append, List.cons_append, List.append_assoc]
          simpa using ihFlat
        · intro p hp
          rcases List.mem_cons.mp hp with h | h
          · subst h
            exact ⟨by simp, ihLead⟩
          · exact ihParts p h

/-- The decomposition has no changed run exactly when the script is entirely
Equal ops. -/
theorem parseRuns_parts_nil_iff (ops : List EditOp) :
    (parseRuns ops).2 = [] ↔ ∀ op ∈ ops, op.isEqual = true := by
  constructor
  · intro h op hop
    obtain ⟨ihLead, ihFlat, _⟩ := parseRuns_spec ops
    rw [h, partsFlat_nil, List.append_nil] at ihFlat
    exact ihLead op (by rw [ihFlat]; exact hop)
  · intro h
    induction ops with
    | nil => rfl
    | cons op rest ih =>
      have he := h op (by simp)
      have ih2 := ih fun o ho => h o (List.mem_cons_of_mem _ ho)
      rw [parseRuns, pushOp_equal op (parseRuns rest) he]
      exact ih2

end DiffEngine

namespace DiffEngine

/-- Well-formedness of a merged run decomposition: changed runs nonempty, gap
runs all Equal, and every gap except the final one longer than `2*ctx`
unchanged lines. -/
def PartsOK (ctx : ℕ) (parts : List (List EditOp × List EditOp)) : Prop :=
  (∀ p ∈ parts, p.1 ≠ [] ∧ ∀ op ∈ p.2, op.isEqual = true)
  ∧ (∀ p ∈ parts.dropLast, 2 * ctx < p.2.length)

theorem mem_dropLast_cons {α : Type} (x : α) (l : List α) (p : α) (hl : l ≠ []) :
    p ∈ (x :: l).dropLast ↔ p = x ∨ p ∈ l.dropLast := by
  cases l with
  | nil => exact absurd rfl hl
  | cons b bs => simp [List.dropLast]

/-- Merging preserves the flattened script and emptiness, and establishes the
separation property: after merging, every gap between two changed regions
exceeds `2*ctx` unchanged lines. -/
theorem mergeParts_spec (ctx : ℕ) :
    ∀ parts : List (List EditOp × List EditOp),
      (∀ p ∈ parts, p.1 ≠ [] ∧ ∀ op ∈ p.2, op.isEqual = true) →
      partsFlat (mergeParts ctx parts) = partsFlat parts
      ∧ (mergeParts ctx parts = [] ↔ parts = [])
      ∧ PartsOK ctx (mergeParts ctx parts) := by
  intro parts
  induction parts with
  | nil => intro _; simp [mergeParts, PartsOK]
  | cons p ps ih =>
    intro hOK
    cases ps with
    | nil =>
      obtain ⟨c1, e1⟩ := p
      refine ⟨by simp [mergeParts], by simp [mergeParts], ?_, ?_⟩
      · simpa [mergeParts] using hOK
      · simp [mergeParts]
    | cons p2 rest =>
      obtain ⟨c1, e1⟩ := p
      have hsub : ∀ q ∈ p2 :: rest, q.1 ≠ [] ∧ ∀ op ∈ q.2, op.isEqual = true :=
        fun q hq => hOK q (List.mem_cons_of_mem _ hq)
      obtain ⟨ihFlat, ihNil, ihOK⟩ := ih hsub
      cases hm : mergeParts ctx (p2 :: rest) with
      | nil => exact absurd (ihNil.mp hm) (by simp)
      | cons q qs =>
        obtain ⟨c2, e2⟩ := q
        rw [hm] at ihFlat ihOK
        have heq : mergeParts ctx ((c1, e1) :: p2 :: rest)
            = if e1.length ≤ 2 * ctx then (c1 ++ e1 ++ c2, e2) :: qs
              else (c1, e1) :: (c2, e2) :: qs := by
          rw [mergeParts, hm]
        by_cases hle : e1.length ≤ 2 * ctx
        · rw [heq, if_pos hle]
          refine ⟨?_, by simp, ?_, ?_⟩
          · rw [partsFlat_cons, partsFlat_cons, ← ihFlat, partsFlat_cons]
            simp [List.append_assoc]
          · intro r hr
            rcases List.mem_cons.mp hr with h | h
            · subst h
              refine ⟨?_, (ihOK.1 (c2, e2) (by simp)).2⟩
              have hc1 := (hOK (c1, e1) (by simp)).1
              simp only [ne_eq, List.append_eq_nil] at hc1 ⊢
              tauto
            · exact ihOK.1 r (List.mem_cons_of_mem _ h)
          · intro r hr
            cases hqs : qs with
            | nil =>
              rw [hqs] at hr
              simp at hr
            | cons s ss =>
              rw [hqs] at hr
              rcases (mem_dropLast_cons _ _ _ (by simp)).mp hr with h | h
              · subst h
                exact ihOK.2 (c2, e2)
                  (by rw [hqs]
                      exact (mem_dropLast_cons _ _ _ (by simp)).mpr (Or.inl rfl))
              · exact ihOK.2 r
                  (by rw [hqs]
                      exact (mem_dropLast_cons _ _ _ (by simp)).mpr (Or.inr h))
        · rw [heq, if_neg hle]
          refine ⟨?_, by simp, ?_, ?_⟩
          · rw [partsFlat_cons c1 e1 ((c2, e2) :: qs),
              partsFlat_cons c1 e1 (p2 :: rest), ihFlat]
          · intro r hr
            rcases List.mem_cons.mp hr with h | h
            · subst h
              exact hOK (c1, e1) (by simp)
            · exact ihOK.1 r h
          · intro r hr
            rcases (mem_dropLast_cons _ _ _ (by simp)).mp hr with h | h
            · subst h
              simp only
              omega
            · exact ihOK.2 r h

end DiffEngine

namespace DiffEngine

theorem mkHunk_ops (o n : ℕ) (ops : List EditOp) : (mkHunk o n ops).ops = ops := rfl

theorem buildFromParts_cons (ctx o n : ℕ) (pre c e : List EditOp)
    (ps : List (List EditOp × List EditOp)) :
    buildFromParts ctx o n pre ((c, e) :: ps)
      = mkHunk (o + (pre.length - ctx)) (n + (pre.length - ctx))
          (pre.drop (pre.length - ctx) ++ c ++ e.take ctx)
        :: buildFromParts ctx (o + pre.length + oldLen c)
            (n + pre.length + newLen c) e ps := by
  rw [buildFromParts]

/-- `buildFromParts` emits exactly one hunk per merged changed region. -/
theorem buildFromParts_length (ctx : ℕ) :
    ∀ (parts : List (List EditOp × List EditOp)) (o n : ℕ) (pre : List EditOp),
      (buildFromParts ctx o n pre parts).length = parts.length := by
  intro parts
  induction parts with
  | nil => intro o n pre; rfl
  | cons p ps ih =>
    intro o n pre
    obtain ⟨c, e⟩ := p
    rw [buildFromParts_cons]
    simp [ih]

theorem le_eqPrefLen_append (xs rest : List EditOp)
    (h : ∀ op ∈ xs, op.isEqual = true) : xs.length ≤ eqPrefLen (xs ++ rest) := by
  induction xs with
  | nil => simp
  | cons x l ih =>
    rw [eqPrefLen, List.cons_append, List.takeWhile_cons_of_pos (h x (by simp))]
    have := ih fun op hop => h op (List.mem_cons_of_mem _ hop)
    rw [eqPrefLen] at this
    simpa using this

theorem le_eqSufLen_append (xs ys : List EditOp)
    (h : ∀ op ∈ ys, op.isEqual = true) : ys.length ≤ eqSufLen (xs ++ ys) := by
  rw [eqSufLen, List.reverse_append]
  have := le_eqPrefLen_append ys.reverse xs.reverse
    fun op hop => h op (List.mem_reverse.mp hop)
  rw [eqPrefLen] at this
  simpa using this

theorem head_mem_left_append (xs rest : List EditOp) (hx : xs ≠ []) :
    ∀ op ∈ (xs ++ rest).head?, op ∈ xs := by
  cases xs with
  | nil => exact absurd rfl hx
  | cons a l =>
    intro op hop
    simp only [List.cons_append, List.head?_cons, Option.mem_def,
      Option.some.injEq] at hop
    subst hop
    simp

theorem getLast_mem_right_append (xs ys : List EditOp) (hy : ys ≠ []) :
    ∀ op ∈ (xs ++ ys).getLast?, op ∈ ys := by
  intro op hop
  rw [List.getLast?_append] at hop
  obtain ⟨a, ha⟩ : ∃ a, ys.getLast? = some a := by
    cases hys : ys.getLast? with
    | none => exact absurd (List.getLast?_eq_none_iff.mp hys) hy
    | some a => exact ⟨a, rfl⟩
  rw [ha] at hop
  simp only [Option.or_some, Option.mem_def, Option.some.injEq] at hop
  subst hop
  exact List.mem_of_mem_getLast? ha

theorem getLast?_cons_of_ne {α : Type} (a : α) (m : List α) (h : m ≠ []) :
    (a :: m).getLast? = m.getLast? := by
  cases m with
  | nil => exact absurd rfl h
  | cons b bs => simp [List.getLast?_cons_cons]

theorem append_take_drop_middle (l rest : List EditOp) (k : ℕ) :
    l.take k ++ (l.drop k ++ rest) = l ++ rest := by
  rw [← List.append_assoc, List.take_append_drop]

end DiffEngine

namespace DiffEngine

/-- Context relation between adjacent hunks: the first ends, and the second
begins, with at least `ctx` Equal ops. -/
def HunkSep (ctx : ℕ) (a b : Hunk) : Prop :=
  ctx ≤ eqSufLen a.ops ∧ ctx ≤ eqPrefLen b.ops

theorem append3_ne_nil (a b d : List EditOp) (hb : b ≠ []) : a ++ b ++ d ≠ [] := by
  simp [hb]

/-- Structural description of the hunks built from a well-formed merged run
decomposition: there are interleaving all-Equal gap runs gluing back to the
script, the gaps strictly between hunks are nonempty, every hunk body is
nonempty, begins with an Equal op unless it opens the script, ends with an
Equal op unless it closes the script, and adjacent hunks carry at least `ctx`
Equal ops of trailing/leading context. -/
theorem buildFromParts_spec (ctx : ℕ) (hctx : 1 ≤ ctx) :
    ∀ (parts : List (List EditOp × List EditOp)) (pre : List EditOp) (o n : ℕ),
      parts ≠ [] →
      (∀ op ∈ pre, op.isEqual = true) →
      PartsOK ctx parts →
      ∃ gaps : List (List EditOp),
        gaps.length = (buildFromParts ctx o n pre parts).length + 1
        ∧ gaps.head? = some (pre.take (pre.length - ctx))
        ∧ glueHunks gaps (buildFromParts ctx o n pre parts) = pre ++ partsFlat parts
        ∧ (∀ g ∈ gaps, ∀ op ∈ g, op.isEqual = true)
        ∧ (∀ g ∈ gaps.tail.dropLast, g ≠ [])
        ∧ (∀ h ∈ buildFromParts ctx o n pre parts, h.ops ≠ [])
        ∧ (∀ h ∈ (buildFromParts ctx o n pre parts).tail,
            ∀ op ∈ h.ops.head?, op.isEqual = true)
        ∧ (∀ h ∈ (buildFromParts ctx o n pre parts).head?,
            (∀ op ∈ h.ops.head?, op.isEqual = true) ∨ pre = [])
        ∧ (∀ h ∈ (buildFromParts ctx o n pre parts).dropLast,
            ∀ op ∈ h.ops.getLast?, op.isEqual = true)
        ∧ (∀ h ∈ (buildFromParts ctx o n pre parts).getLast?,
            (∀ op ∈ h.ops.getLast?, op.isEqual = true) ∨ gaps.getLast? = some [])
        ∧ (∀ h ∈ (buildFromParts ctx o n pre parts).head?,
            min ctx pre.length ≤ eqPrefLen h.ops)
        ∧ List.Chain' (HunkSep ctx) (buildFromParts ctx o n pre parts) := by
  intro parts
  induction parts with
  | nil => intro pre o n hne _ _; exact absurd rfl hne
  | cons p ps ih =>
    obtain ⟨c, e⟩ := p
    intro pre o n _ hpre hOK
    have hce := hOK.1 (c, e) (by simp)
    have hcne : c ≠ [] := hce.1
    have heEq : ∀ op ∈ e, op.isEqual = true := hce.2
    have hbne : pre.drop (pre.length - ctx) ++ c ++ e.take ctx ≠ [] :=
      append3_ne_nil _ _ _ hcne
    have hheadEq : pre ≠ [] →
        ∀ op ∈ (pre.drop (pre.length - ctx) ++ c ++ e.take ctx).head?,
          op.isEqual = true := by
      intro hpreNe op hop
      have hplen : pre.length ≠ 0 := by
        simpa [List.length_eq_zero] using hpreNe
      have hdne : pre.drop (pre.length - ctx) ≠ [] := by
        rw [ne_eq, List.drop_eq_nil_iff]
        omega
      rw [List.append_assoc] at hop
      exact hpre op (List.mem_of_mem_drop
        (head_mem_left_append _ _ hdne op hop))
    have hlastEq : e ≠ [] →
        ∀ op ∈ (pre.drop (pre.length - ctx) ++ c ++ e.take ctx).getLast?,
          op.isEqual = true := by
      intro heNe op hop
      have htkne : e.take ctx ≠ [] := by
        rw [ne_eq, List.take_eq_nil_iff]
        simp [heNe]
        omega
      exact heEq op (List.mem_of_mem_take
        (getLast_mem_right_append _ _ htkne op hop))
    have hprefB : min ctx pre.length
        ≤ eqPrefLen (pre.drop (pre.length - ctx) ++ c ++ e.take ctx) := by
      have h1 := le_eqPrefLen_append (pre.drop (pre.length - ctx))
        (c ++ e.take ctx) (fun op hop => hpre op (List.mem_of_mem_drop hop))
      rw [List.length_drop] at h1
      rw [List.append_assoc]
      omega
    have hsufB : ctx ≤ e.length →
        ctx ≤ eqSufLen (pre.drop (pre.length - ctx) ++ c ++ e.take ctx) := by
      intro hce2
      have h2 := le_eqSufLen_append (pre.drop (pre.length - ctx) ++ c)
        (e.take ctx) (fun op hop => heEq op (List.mem_of_mem_take hop))
      rw [List.length_take] at h2
      omega
    rw [buildFromParts_cons]
    cases ps with
    | nil =>
      refine ⟨[pre.take (pre.length - ctx), e.drop ctx], ?_, rfl, ?_, ?_, ?_, ?_,
        ?_, ?_, ?_, ?_, ?_, ?_⟩
      · simp [buildFromParts]
      · simp only [buildFromParts, glueHunks, mkHunk_ops, partsFlat_cons,
          partsFlat_nil, List.append_nil, List.flatten, List.append_assoc]
        rw [append_take_drop_middle, List.take_append_drop]
      · intro g hg
        simp only [List.mem_cons, List.not_mem_nil, or_false] at hg
        rcases hg with hg | hg
        · subst hg
          exact fun op hop => hpre op (List.mem_of_mem_take hop)
        · subst hg
          exact fun op hop => heEq op (List.mem_of_mem_drop hop)
      · simp
      · intro h hh
        simp only [buildFromParts, List.mem_singleton] at hh
        subst hh
        rw [mkHunk_ops]
        exact hbne
      · simp [buildFromParts]
      · intro h hh
        simp only [buildFromParts, List.head?_cons, Option.mem_def,
          Option.some.injEq] at hh
        subst hh
        by_cases hpreNe : pre = []
        · exact Or.inr hpreNe
        · exact Or.inl (by rw [mkHunk_ops]; exact hheadEq hpreNe)
      · simp [buildFromParts]
      · intro h hh
        simp only [buildFromParts, List.getLast?_singleton, Option.mem_def,
          Option.some.injEq] at hh
        subst hh
        by_cases heNe : e = []
        · refine Or.inr ?_
          subst heNe
          simp
        · exact Or.inl (by rw [mkHunk_ops]; exact hlastEq heNe)
      · intro h hh
        simp only [buildFromParts, List.head?_cons, Option.mem_def,
          Option.some.injEq] at hh
        subst hh
        rw [mkHunk_ops]
        exact hprefB
      · simp [buildFromParts]
    | cons p2 ps' =>
      have hpsne : p2 :: ps' ≠ [] := by simp
      have hOKps : PartsOK ctx (p2 :: ps') := by
        refine ⟨fun q hq => hOK.1 q (List.mem_cons_of_mem _ hq), fun q hq => ?_⟩
        exact hOK.2 q ((mem_dropLast_cons _ _ _ hpsne).mpr (Or.inr hq))
      have hegap : 2 * ctx < e.length :=
        hOK.2 (c, e) ((mem_dropLast_cons _ _ _ hpsne).mpr (Or.inl rfl))
      have heNe : e ≠ [] := by
        intro hh
        rw [hh] at hegap
        simp at hegap
      obtain ⟨gaps', ihLen, ihHead, ihGlue, ihAllEq, ihInner, ihNe, ihTailHead,
        ihHeadHead, ihDropLast, ihLast, ihPref, ihChain⟩ :=
        ih e (o + pre.length + oldLen c) (n + pre.length + newLen c) hpsne heEq hOKps
      rcases hhs : buildFromParts ctx (o + pre.length + oldLen c)
          (n + pre.length + newLen c) e (p2 :: ps') with _ | ⟨h1, ht⟩
      · have := buildFromParts_length ctx (p2 :: ps')
          (o + pre.length + oldLen c) (n + pre.length + newLen c) e
        rw [hhs] at this
        simp at this
      rw [hhs] at ihLen ihGlue ihNe ihTailHead ihHeadHead ihDropLast ihLast ihPref ihChain
      rcases gaps' with _ | ⟨g0', gt'⟩
      · simp at ihHead
      have hg0' : g0' = e.take (e.length - ctx) := by simpa using ihHead
      have hgtne : gt' ≠ [] := by
        have : gt'.length = ht.length + 1 := by simpa using ihLen
        intro hh
        rw [hh] at this
        simp at this
      have hg0len : g0'.length = e.length - ctx := by
        rw [hg0', List.length_take]
        omega
      have hgmidne : g0'.drop ctx ≠ [] := by
        rw [ne_eq, List.drop_eq_nil_iff]
        omega
      have hsplit2 : ∀ R : List EditOp,
          e.take ctx ++ (g0'.drop ctx ++ R) = g0' ++ R := by
        intro R
        rw [← List.append_assoc]
        congr 1
        conv_rhs => rw [← List.take_append_drop ctx g0']
        congr 1
        rw [hg0', List.take_take]
        congr 1
        omega
      refine ⟨pre.take (pre.length - ctx) :: (g0'.drop ctx) :: gt', ?_, rfl,
        ?_, ?_, ?_, ?_, ?_, ?_, ?_, ?_, ?_, ?_⟩
      · simp only [List.length_cons]
        simp only [List.length_cons] at ihLen
        omega
      · simp only [glueHunks, mkHunk_ops, partsFlat_cons, List.append_assoc]
        simp only [glueHunks, List.append_assoc] at ihGlue
        rw [append_take_drop_middle, hsplit2, ihGlue]
      · intro g hg
        simp only [List.mem_cons] at hg
        rcases hg with hg | hg | hg
        · subst hg
          exact fun op hop => hpre op (List.mem_of_mem_take hop)
        · subst hg
          intro op hop
          exact ihAllEq g0' (by simp) op (List.mem_of_mem_drop hop)
        · exact ihAllEq g (List.mem_cons_of_mem _ hg)
      · intro g hg
        simp only [List.tail_cons] at hg
        rcases (mem_dropLast_cons _ _ _ hgtne).mp hg with hg | hg
        · subst hg
          exact hgmidne
        · exact ihInner g (by simpa using hg)
      · intro h hh
        rcases List.mem_cons.mp hh with hh | hh
        · subst hh
          rw [mkHunk_ops]
          exact hbne
        · exact ihNe h hh
      · intro h hh
        simp only [List.tail_cons] at hh
        rcases List.mem_cons.mp hh with hh | hh
        · subst hh
          rcases ihHeadHead h (by simp) with hok | habs
          · exact hok
          · exact absurd habs heNe
        · exact ihTailHead h (by simpa using hh)
      · intro h hh
        simp only [List.head?_cons, Option.mem_def, Option.some.injEq] at hh
        subst hh
        by_cases hpreNe : pre = []
        · exact Or.inr hpreNe
        · exact Or.inl (by rw [mkHunk_ops]; exact hheadEq hpreNe)
      · intro h hh
        rcases (mem_dropLast_cons _ _ _ (by simp)).mp hh with hh | hh
        · subst hh
          rw [mkHunk_ops]
          exact hlastEq heNe
        · exact ihDropLast h (by simpa using hh)
      · intro h hh
        rw [getLast?_cons_of_ne _ _ (by simp)] at hh
        rcases ihLast h hh with hok | hgl
        · exact Or.inl hok
        · refine Or.inr ?_
          rw [getLast?_cons_of_ne _ _ (by simp), getLast?_cons_of_ne _ _ hgtne]
          rw [getLast?_cons_of_ne _ _ hgtne] at hgl
          exact hgl
      · intro h hh
        simp only [List.head?_cons, Option.mem_def, Option.some.injEq] at hh
        subst hh
        rw [mkHunk_ops]
        exact hprefB
      · rw [List.chain'_cons]
        refine ⟨⟨?_, ?_⟩, ihChain⟩
        · rw [mkHunk_ops]
          exact hsufB (by omega)
        · have := ihPref h1 (by simp)
          have hmin : min ctx e.length = ctx := by omega
          omega
end DiffEngine

open DiffEngine in
/-- C4: invariants of the built hunk sequence, for any context size at least
1: the hunks tile the edit script with all-Equal gap runs between them
(`glueHunks`); every hunk body is nonempty; a hunk's first (resp. last) body
line is an Equal context line unless the hunk opens (resp. closes) the edit
script, i.e. unless the adjoining gap is empty because the change abuts the
start or end of both files; the gaps strictly between adjacent hunks are
nonempty while adjacent hunks carry at least `ctx` trailing and `ctx` leading
Equal lines, so two adjacent hunks' changed regions are always separated by
at least `2*ctx + 1` unchanged lines — changed regions closer than that were
merged into a single hunk. -/
theorem hunk_invariants (ctx : ℕ) (hctx : 1 ≤ ctx) (ops : List EditOp) :
    ∃ gaps : List (List EditOp),
      gaps.length = (buildHunks ctx ops).length + 1
      ∧ glueHunks gaps (buildHunks ctx ops) = ops
      ∧ (∀ g ∈ gaps, ∀ op ∈ g, op.isEqual = true)
      ∧ (∀ h ∈ buildHunks ctx ops, h.ops ≠ [])
      ∧ (∀ h ∈ (buildHunks ctx ops).tail, ∀ op ∈ h.ops.head?, op.isEqual = true)
      ∧ (∀ h ∈ (buildHunks ctx ops).head?,
          (∀ op ∈ h.ops.head?, op.isEqual = true) ∨ gaps.head? = some [])
      ∧ (∀ h ∈ (buildHunks ctx ops).dropLast,
          ∀ op ∈ h.ops.getLast?, op.isEqual = true)
      ∧ (∀ h ∈ (buildHunks ctx ops).getLast?,
          (∀ op ∈ h.ops.getLast?, op.isEqual = true) ∨ gaps.getLast? = some [])
      ∧ (∀ g ∈ gaps.tail.dropLast, g ≠ [])
      ∧ List.Chain' (HunkSep ctx) (buildHunks ctx ops) := by
  obtain ⟨prLead, prFlat, prParts⟩ := parseRuns_spec ops
  obtain ⟨msFlat, msNil, msOK⟩ := mergeParts_spec ctx (parseRuns ops).2 prParts
  by_cases hm : mergeParts ctx (parseRuns ops).2 = []
  · have hparts : (parseRuns ops).2 = [] := msNil.mp hm
    have hops : (parseRuns ops).1 = ops := by
      conv_rhs => rw [← prFlat]
      rw [hparts, partsFlat_nil, List.append_nil]
    have hempty : buildHunks ctx ops = [] := by
      simp only [buildHunks, hm]
      rfl
    refine ⟨[ops], by simp [hempty], ?_, ?_, by simp [hempty], by simp [hempty],
      by simp [hempty], by simp [hempty], by simp [hempty], by simp, by simp [hempty]⟩
    · rw [hempty]
      simp [glueHunks]
    · intro g hg
      simp only [List.mem_singleton] at hg
      subst hg
      intro op hop
      exact prLead op (by rw [hops]; exact hop)
  · obtain ⟨gaps, hLen, hHead, hGlue, hAllEq, hInner, hNe, hTailHead, hHeadHead,
      hDropLast, hLast, hPref, hChain⟩ :=
      buildFromParts_spec ctx hctx (mergeParts ctx (parseRuns ops).2)
        (parseRuns ops).1 0 0 hm prLead msOK
    refine ⟨gaps, ?_, ?_, hAllEq, ?_, ?_, ?_, ?_, ?_, hInner, ?_⟩
    · simpa [buildHunks] using hLen
    · show glueHunks gaps (buildHunks ctx ops) = ops
      simp only [buildHunks]
      rw [hGlue, msFlat, prFlat]
    · simpa [buildHunks] using hNe
    · simpa [buildHunks] using hTailHead
    · intro h hh
      rcases hHeadHead h (by simpa [buildHunks] using hh) with hok | hnil
      · exact Or.inl hok
      · refine Or.inr ?_
        rw [hHead, hnil]
        simp
    · simpa [buildHunks] using hDropLast
    · simpa [buildHunks] using hLast
    · simpa [buildHunks] using hChain

open DiffEngine in
/-- Closed witness for `hunk_invariants` at context size 3 and a one-op
script. -/
theorem hunk_invariants_witness :
    ∃ gaps : List (List EditOp),
      gaps.length = (buildHunks 3 [.delete ⟨['a'], true⟩]).length + 1
      ∧ glueHunks gaps (buildHunks 3 [.delete ⟨['a'], true⟩])
          = [.delete ⟨['a'], true⟩]
      ∧ (∀ g ∈ gaps, ∀ op ∈ g, op.isEqual = true)
      ∧ (∀ h ∈ buildHunks 3 [.delete ⟨['a'], true⟩], h.ops ≠ [])
      ∧ (∀ h ∈ (buildHunks 3 [.delete ⟨['a'], true⟩]).tail,
          ∀ op ∈ h.ops.head?, op.isEqual = true)
      ∧ (∀ h ∈ (buildHunks 3 [.delete ⟨['a'], true⟩]).head?,
          (∀ op ∈ h.ops.head?, op.isEqual = true) ∨ gaps.head? = some [])
      ∧ (∀ h ∈ (buildHunks 3 [.delete ⟨['a'], true⟩]).dropLast,
          ∀ op ∈ h.ops.getLast?, op.isEqual = true)
      ∧ (∀ h ∈ (buildHunks 3 [.delete ⟨['a'], true⟩]).getLast?,
          (∀ op ∈ h.ops.getLast?, op.isEqual = true) ∨ gaps.getLast? = some [])
      ∧ (∀ g ∈ gaps.tail.dropLast, g ≠ [])
      ∧ List.Chain' (HunkSep 3) (buildHunks 3 [.delete ⟨['a'], true⟩]) :=
  hunk_invariants 3 (by decide) [.delete ⟨['a'], true⟩]

namespace DiffEngine

/-- A rendered body line charged to the old side: context or deletion. -/
def isOldLine (l : List Char) : Bool := l.head? == some ' ' || l.head? == some '-'

/-- A rendered body line charged to the new side: context or insertion. -/
def isNewLine (l : List Char) : Bool := l.head? == some ' ' || l.head? == some '+'

theorem oldLen_cons_equal (l : Line) (r : List EditOp) :
    oldLen (.equal l :: r) = oldLen r + 1 := by
  simp [oldLen, olds]

theorem oldLen_cons_delete (l : Line) (r : List EditOp) :
    oldLen (.delete l :: r) = oldLen r + 1 := by
  simp [oldLen, olds]

theorem oldLen_cons_insert (l : Line) (r : List EditOp) :
    oldLen (.insert l :: r) = oldLen r := by
  simp [oldLen, olds]

theorem newLen_cons_equal (l : Line) (r : List EditOp) :
    newLen (.equal l :: r) = newLen r + 1 := by
  simp [newLen, news]

theorem newLen_cons_delete (l : Line) (r : List EditOp) :
    newLen (.delete l :: r) = newLen r := by
  simp [newLen, news]

theorem newLen_cons_insert (l : Line) (r : List EditOp) :
    newLen (.insert l :: r) = newLen r + 1 := by
  simp [newLen, news]

theorem countP_opLines_old (ops : List EditOp) :
    (ops.flatMap opLines).countP isOldLine = oldLen ops := by
  induction ops with
  | nil => rfl
  | cons op rest ih =>
    rw [List.flatMap_cons, List.countP_append, ih]
    cases op with
    | equal l =>
      rw [oldLen_cons_equal]
      by_cases ht : l.terminated <;>
        simp [opLines, isOldLine, ht, noNewlineMarker, List.countP_cons, Nat.add_comm]
    | delete l =>
      rw [oldLen_cons_delete]
      by_cases ht : l.terminated <;>
        simp [opLines, isOldLine, ht, noNewlineMarker, List.countP_cons, Nat.add_comm]
    | insert l =>
      rw [oldLen_cons_insert]
      by_cases ht : l.terminated <;>
        simp [opLines, isOldLine, ht, noNewlineMarker, List.countP_cons]

theorem countP_opLines_new (ops : List EditOp) :
    (ops.flatMap opLines).countP isNewLine = newLen ops := by
  induction ops with
  | nil => rfl
  | cons op rest ih =>
    rw [List.flatMap_cons, List.countP_append, ih]
    cases op with
    | equal l =>
      rw [newLen_cons_equal]
      by_cases ht : l.terminated <;>
        simp [opLines, isNewLine, ht, noNewlineMarker, List.countP_cons, Nat.add_comm]
    | delete l =>
      rw [newLen_cons_delete]
      by_cases ht : l.terminated <;>
        simp [opLines, isNewLine, ht, noNewlineMarker, List.countP_cons]
    | insert l =>
      rw [newLen_cons_insert]
      by_cases ht : l.terminated <;>
        simp [opLines, isNewLine, ht, noNewlineMarker, List.countP_cons, Nat.add_comm]

/-- Every hunk the builder produces records as its counts exactly the number
of old-side and new-side lines of its body ops. -/
theorem buildFromParts_counts (ctx : ℕ) :
    ∀ (parts : List (List EditOp × List EditOp)) (o n : ℕ) (pre : List EditOp),
      ∀ h ∈ buildFromParts ctx o n pre parts,
        h.oldCount = oldLen h.ops ∧ h.newCount = newLen h.ops := by
  intro parts
  induction parts with
  | nil => intro o n pre h hh; simp [buildFromParts] at hh
  | cons p ps ih =>
    intro o n pre h hh
    obtain ⟨c, e⟩ := p
    rw [buildFromParts_cons] at hh
    rcases List.mem_cons.mp hh with hh | hh
    · subst hh
      exact ⟨rfl, rfl⟩
    · exact ih _ _ _ h hh

theorem buildHunks_counts (ctx : ℕ) (ops : List EditOp) :
    ∀ h ∈ buildHunks ctx ops,
      h.oldCount = oldLen h.ops ∧ h.newCount = newLen h.ops := by
  intro h hh
  exact buildFromParts_counts ctx _ _ _ _ h (by simpa [buildHunks] using hh)

end DiffEngine

open DiffEngine in
/-- C5: for every hunk the pipeline builds, the rendered hunk starts with the
header `@@ -oldStart,oldCount +newStart,newCount @@` and the recorded
oldCount equals the number of rendered body lines prefixed with `" "` or
`"-"`, while newCount equals the number prefixed with `" "` or `"+"` (the
optional no-newline marker lines start with a backslash and count for
neither side). -/
theorem hunk_header_counts (ctx : ℕ) (ops : List EditOp) :
    ∀ h ∈ buildHunks ctx ops,
      (renderHunkLines h).head? = some (hunkHeader h)
      ∧ (renderHunkLines h).tail.countP isOldLine = h.oldCount
      ∧ (renderHunkLines h).tail.countP isNewLine = h.newCount := by
  intro h hh
  obtain ⟨ho, hn⟩ := buildHunks_counts ctx ops h hh
  refine ⟨rfl, ?_, ?_⟩
  · rw [renderHunkLines, List.tail_cons, countP_opLines_old, ho]
  · rw [renderHunkLines, List.tail_cons, countP_opLines_new, hn]

open DiffEngine in
/-- Closed witness for `hunk_header_counts` at the single hunk built from a
one-deletion script. -/
theorem hunk_header_counts_witness :
    (renderHunkLines (Hunk.mk 1 1 0 0 [.delete ⟨['a'], true⟩])).head?
        = some (hunkHeader (Hunk.mk 1 1 0 0 [.delete ⟨['a'], true⟩]))
    ∧ (renderHunkLines (Hunk.mk 1 1 0 0 [.delete ⟨['a'], true⟩])).tail.countP isOldLine
        = (Hunk.mk 1 1 0 0 [.delete ⟨['a'], true⟩]).oldCount
    ∧ (renderHunkLines (Hunk.mk 1 1 0 0 [.delete ⟨['a'], true⟩])).tail.countP isNewLine
        = (Hunk.mk 1 1 0 0 [.delete ⟨['a'], true⟩]).newCount :=
  hunk_header_counts 3 [.delete ⟨['a'], true⟩]
    (Hunk.mk 1 1 0 0 [.delete ⟨['a'], true⟩]) (by decide)

namespace DiffEngine

theorem renderAll_cons_ne_nil (h : Hunk) (t : List Hunk) : renderAll (h :: t) ≠ [] := by
  simp [renderAll, renderHunkLines]

theorem olds_eq_news_of_all_equal :
    ∀ s : List EditOp, (∀ op ∈ s, op.isEqual = true) → olds s = news s := by
  intro s
  induction s with
  | nil => intro _; rfl
  | cons op rest ih =>
    intro h
    cases op with
    | equal l =>
      rw [olds, news, ih fun o ho => h o (List.mem_cons_of_mem _ ho)]
    | delete l => simpa [EditOp.isEqual] using h (.delete l) (by simp)
    | insert l => simpa [EditOp.isEqual] using h (.insert l) (by simp)

theorem matchLinesExec_all_equal_self (xs : List Line) :
    ∀ op ∈ matchLinesExec xs xs, op.isEqual = true := by
  rw [matchLinesExec_eq, matchLines_self]
  intro op hop
  obtain ⟨l, _, rfl⟩ := List.mem_map.mp hop
  rfl

/-- The pipeline produces no hunks exactly when the matcher's script is all
Equal ops. -/
theorem buildHunks_eq_nil_iff (ctx : ℕ) (s : List EditOp) :
    buildHunks ctx s = [] ↔ ∀ op ∈ s, op.isEqual = true := by
  obtain ⟨prLead, prFlat, prParts⟩ := parseRuns_spec s
  obtain ⟨msFlat, msNil, msOK⟩ := mergeParts_spec ctx (parseRuns s).2 prParts
  constructor
  · intro hb
    have hlen := buildFromParts_length ctx (mergeParts ctx (parseRuns s).2)
      0 0 (parseRuns s).1
    rw [show buildFromParts ctx 0 0 (parseRuns s).1 (mergeParts ctx (parseRuns s).2)
        = buildHunks ctx s from rfl, hb] at hlen
    have hmerged : mergeParts ctx (parseRuns s).2 = [] :=
      List.length_eq_zero.mp hlen.symm
    exact (parseRuns_parts_nil_iff s).mp (msNil.mp hmerged)
  · intro hall
    have hparts : (parseRuns s).2 = [] := (parseRuns_parts_nil_iff s).mpr hall
    have hmerged : mergeParts ctx (parseRuns s).2 = [] := msNil.mpr hparts
    simp only [buildHunks, hmerged]
    rfl

end DiffEngine

open DiffEngine in
/-- C1: the diff engine's output is non-empty exactly when the two input
buffers differ byte-for-byte, whatever the labels; in particular the diff of
any buffer against itself, including the empty buffer, is empty. -/
theorem diff_nonempty_iff_ne (lo ln A B : List Char) :
    (DiffEngine.Diff lo A ln B = [] ↔ A = B)
    ∧ (DiffEngine.Diff lo A ln B ≠ [] ↔ A ≠ B)
    ∧ DiffEngine.Diff lo A ln A = [] := by
  have main : ∀ X Y : List Char, (DiffEngine.Diff lo X ln Y = [] ↔ X = Y) := by
    intro X Y
    constructor
    · intro hD
      have hhs : diffHunks X Y = [] := by
        cases hh : diffHunks X Y with
        | nil => rfl
        | cons h t =>
          rw [DiffEngine.Diff, hh] at hD
          exact absurd hD (renderAll_cons_ne_nil h t)
      have hall : ∀ op ∈ matchLinesExec (split X) (split Y), op.isEqual = true :=
        (buildHunks_eq_nil_iff contextSize _).mp hhs
      have hxy : split X = split Y := by
        have h1 := (matchLines_replay (split X) (split Y)).1
        have h2 := (matchLines_replay (split X) (split Y)).2
        rw [← matchLinesExec_eq] at h1 h2
        have h3 := olds_eq_news_of_all_equal _ hall
        rw [h1, h2] at h3
        exact h3
      calc X = unsplit (split X) := (unsplit_split X).symm
        _ = unsplit (split Y) := by rw [hxy]
        _ = Y := unsplit_split Y
    · intro hXY
      subst hXY
      have hall := matchLinesExec_all_equal_self (split X)
      have hhs : diffHunks X X = [] := (buildHunks_eq_nil_iff contextSize _).mpr hall
      rw [DiffEngine.Diff, hhs]
      rfl
  refine ⟨main A B, ?_, (main A A).mpr rfl⟩
  constructor
  · intro hne hAB
    exact hne ((main A B).mpr hAB)
  · intro hne hD
    exact hne ((main A B).mp hD)

open DiffEngine in
/-- C6: on old = "hello\nworld\n" and new = "hello\nthere\n" the engine
produces exactly one hunk, rendered with header `@@ -1,2 +1,2 @@` and body
lines `" hello"`, `"-world"`, `"+there"`. -/
theorem scenario_two_exact :
    (diffHunks "hello\nworld\n".data "hello\nthere\n".data).map renderHunkLines
      = [["@@ -1,2 +1,2 @@".data, " hello".data, "-world".data, "+there".data]]
    ∧ DiffEngine.Diff "old".data "hello\nworld\n".data "new".data "hello\nthere\n".data
      = "@@ -1,2 +1,2 @@\n hello\n-world\n+there\n".data :=
  ⟨by decide, by decide⟩
